import Mathlib

/-!
Verification of the Black-Scholes visualizer core
(`src/blackscholes.py` and `src/black-scholes-ui.py`).

The pricing class `BlackScholes` is shallowly embedded as a structure of
six fields; its two methods `calculate_price` and `generate_plot` are
embedded as functions.  The Python run-time arithmetic exceptions
(`ZeroDivisionError` for float division by zero, `ValueError` for
`math.log` of a non-positive argument or `math.sqrt` of a negative
argument, `UnboundLocalError` for reading a never-assigned local) are
made explicit through an `Except` result, with the guards placed in the
order in which Python would evaluate the offending subexpressions.
Mutation of `self` by the loop variables of `generate_plot` is modelled by
explicit state passing: each loop body receives the current record and
produces the updated one.
-/

open MeasureTheory

/-- Modelled from the spec: `scipy.stats.norm.cdf` (an external library
function, not part of `src/`) is "Φ, the standard normal cumulative
distribution function".  `normalPDF` is the standard normal density. -/
noncomputable def normalPDF (t : ℝ) : ℝ :=
  Real.exp (-(t ^ 2) / 2) / Real.sqrt (2 * Real.pi)

/-- Modelled from the spec: the standard normal cumulative distribution
function Φ, i.e. the integral of the standard normal density over
`(-∞, x]`.  This stands for `scipy.stats.norm.cdf`. -/
noncomputable def Phi (x : ℝ) : ℝ := ∫ t in Set.Iic x, normalPDF t

/-- The attributes stored on a `BlackScholes` object by `__init__`
(`src/blackscholes.py`, lines 21-37). -/
structure BlackScholes where
  S : ℝ
  K : ℝ
  T : ℝ
  r : ℝ
  vol : ℝ
  option_type : String

/-- The Python run-time errors that `calculate_price` can raise:
float division by zero, a `math` domain error, and reading the local
`price` when neither `if` branch assigned it. -/
inductive PyErr where
  | zeroDivisionError
  | valueError
  | unboundLocalError
  deriving DecidableEq, Repr

/-- `BlackScholes.calculate_price` (`src/blackscholes.py`, lines 39-54).
The guards reproduce, in evaluation order, the places where Python would
raise: `self.S/self.K` raises `ZeroDivisionError` when `K = 0`;
`math.log` raises `ValueError` on a non-positive argument;
`math.sqrt` raises `ValueError` on a negative argument; the division by
`self.vol * math.sqrt(self.T)` raises `ZeroDivisionError` when that
product is zero; and `return price` raises `UnboundLocalError` when
neither conditional assigned `price`. -/
noncomputable def calculate_price (p : BlackScholes) : Except PyErr ℝ :=
  if p.K = 0 then .error .zeroDivisionError
  else if p.S / p.K ≤ 0 then .error .valueError
  else if p.T < 0 then .error .valueError
  else if p.vol * Real.sqrt p.T = 0 then .error .zeroDivisionError
  else
    let d1 := (Real.log (p.S / p.K) + (p.r + 0.5 * p.vol ^ 2) * p.T) /
      (p.vol * Real.sqrt p.T)
    let d2 := d1 - p.vol * Real.sqrt p.T
    if p.option_type = "call" then
      .ok (p.S * Phi d1 - p.K * Real.exp (-p.r * p.T) * Phi d2)
    else if p.option_type = "put" then
      .ok (p.K * Real.exp (-p.r * p.T) * Phi (-d2) - p.S * Phi (-d1))
    else .error .unboundLocalError

/-- `np.linspace(a, b, n)`: `n` evenly spaced values from `a` to `b`
with both endpoints included (`n - 1` equal steps). -/
noncomputable def linspace (a b : ℝ) (n : ℕ) : List ℝ :=
  (List.range n).map fun i : ℕ => a + (b - a) * (i : ℝ) / ((n : ℝ) - 1)

/-- The inner loop of `generate_plot` (`src/blackscholes.py`, line 78):
`for j, self.S in enumerate(S_range)` — each iteration overwrites
`self.S` with the next spot sample, calls `calculate_price`, and appends
`option_price - purchase_price` to the current row. -/
noncomputable def fillRow (purchase_price : ℝ) (acc : List ℝ) (p : BlackScholes) :
    List ℝ → Except PyErr (List ℝ × BlackScholes)
  | [] => .ok (acc, p)
  | s :: rest =>
    let q := { p with S := s }
    match calculate_price q with
    | .error e => .error e
    | .ok v => fillRow purchase_price (acc ++ [v - purchase_price]) q rest

/-- The outer loop of `generate_plot` (`src/blackscholes.py`, line 77):
`for i, self.vol in enumerate(vol_range)` — each iteration overwrites
`self.vol` with the next volatility sample and runs the inner loop over
the spot samples, appending the produced row to the matrix. -/
noncomputable def fillGrid (purchase_price : ℝ) (sR : List ℝ)
    (acc : List (List ℝ)) (p : BlackScholes) :
    List ℝ → Except PyErr (List (List ℝ) × BlackScholes)
  | [] => .ok (acc, p)
  | v :: rest =>
    let q := { p with vol := v }
    match fillRow purchase_price [] q sR with
    | .error e => .error e
    | .ok rp => fillGrid purchase_price sR (acc ++ [rp.1]) rp.2 rest

/-- `BlackScholes.generate_plot` (`src/blackscholes.py`, lines 56-80),
restricted to its computational content: the `pnl` matrix built from
`np.linspace(S_min, S_max, 10)` and `np.linspace(vol_min, vol_max, 10)`,
together with the final state of the mutated `self` record.  The
matplotlib/seaborn rendering consumes only this data. -/
noncomputable def generate_plot (p : BlackScholes)
    (S_min S_max vol_min vol_max purchase_price : ℝ) :
    Except PyErr (List (List ℝ) × BlackScholes) :=
  let S_range := linspace S_min S_max 10
  let vol_range := linspace vol_min vol_max 10
  fillGrid purchase_price S_range [] p vol_range

namespace UIModule

/-- `BlackScholes.calculate_price` as duplicated in
`src/black-scholes-ui.py` (lines 17-25).  The only difference from the
copy in `src/blackscholes.py` is that the factor multiplying
`(self.r + 0.5 * self.vol**2)` in the numerator of `d1` is the bare
name `T` — the module-level global set by the Streamlit number input —
rather than `self.T`; `T_global` is that ambient value. -/
noncomputable def calculate_price (p : BlackScholes) (T_global : ℝ) :
    Except PyErr ℝ :=
  if p.K = 0 then .error .zeroDivisionError
  else if p.S / p.K ≤ 0 then .error .valueError
  else if p.T < 0 then .error .valueError
  else if p.vol * Real.sqrt p.T = 0 then .error .zeroDivisionError
  else
    let d1 := (Real.log (p.S / p.K) + (p.r + 0.5 * p.vol ^ 2) * T_global) /
      (p.vol * Real.sqrt p.T)
    let d2 := d1 - p.vol * Real.sqrt p.T
    if p.option_type = "call" then
      .ok (p.S * Phi d1 - p.K * Real.exp (-p.r * p.T) * Phi d2)
    else if p.option_type = "put" then
      .ok (p.K * Real.exp (-p.r * p.T) * Phi (-d2) - p.S * Phi (-d1))
    else .error .unboundLocalError

end UIModule

/-- `d1` as written in the spec and in the source. -/
noncomputable def d1 (p : BlackScholes) : ℝ :=
  (Real.log (p.S / p.K) + (p.r + 0.5 * p.vol ^ 2) * p.T) /
    (p.vol * Real.sqrt p.T)

/-- `d2 = d1 - vol * sqrt(T)`. -/
noncomputable def d2 (p : BlackScholes) : ℝ := d1 p - p.vol * Real.sqrt p.T

/-- The call branch value: `S * Phi(d1) - K * exp(-r*T) * Phi(d2)`. -/
noncomputable def callFormula (p : BlackScholes) : ℝ :=
  p.S * Phi (d1 p) - p.K * Real.exp (-p.r * p.T) * Phi (d2 p)

/-- The put branch value: `K * exp(-r*T) * Phi(-d2) - S * Phi(-d1)`. -/
noncomputable def putFormula (p : BlackScholes) : ℝ :=
  p.K * Real.exp (-p.r * p.T) * Phi (-(d2 p)) - p.S * Phi (-(d1 p))

/-- The value produced by a successful `calculate_price`. -/
noncomputable def priceVal (p : BlackScholes) : ℝ :=
  if p.option_type = "call" then callFormula p else putFormula p

/-- The numeric guards of `calculate_price` all pass. -/
def okNum (p : BlackScholes) : Prop :=
  ¬p.K = 0 ∧ ¬p.S / p.K ≤ 0 ∧ ¬p.T < 0 ∧ ¬p.vol * Real.sqrt p.T = 0

/-- The option kind is one of the two recognized strings. -/
def okKind (p : BlackScholes) : Prop :=
  p.option_type = "call" ∨ p.option_type = "put"

lemma normalPDF_eq :
    normalPDF = fun t => Real.exp (-(1/2 : ℝ) * t ^ 2) * (Real.sqrt (2 * Real.pi))⁻¹ := by
  funext t
  rw [normalPDF, div_eq_mul_inv]
  ring_nf

lemma integrable_normalPDF : Integrable normalPDF := by
  rw [normalPDF_eq]
  exact (integrable_exp_neg_mul_sq (by norm_num)).mul_const _

lemma continuous_normalPDF : Continuous normalPDF := by
  rw [normalPDF_eq]
  exact ((Real.continuous_exp.comp (by continuity)).mul continuous_const)

lemma normalPDF_nonneg (t : ℝ) : 0 ≤ normalPDF t :=
  div_nonneg (Real.exp_pos _).le (Real.sqrt_nonneg _)

lemma sqrt_two_pi_pos : 0 < Real.sqrt (2 * Real.pi) :=
  Real.sqrt_pos.mpr (by positivity)

lemma integral_normalPDF : ∫ t, normalPDF t = 1 := by
  have h : ∫ t : ℝ, Real.exp (-(1/2 : ℝ) * t ^ 2) = Real.sqrt (Real.pi / (1/2)) :=
    integral_gaussian (1/2)
  rw [normalPDF_eq]
  rw [MeasureTheory.integral_mul_right, h]
  rw [show Real.pi / (1/2 : ℝ) = 2 * Real.pi by ring]
  exact mul_inv_cancel₀ sqrt_two_pi_pos.ne'

lemma normalPDF_neg (t : ℝ) : normalPDF (-t) = normalPDF t := by
  simp [normalPDF]

lemma Phi_neg (x : ℝ) : Phi (-x) = 1 - Phi x := by
  have h1 : Phi (-x) = ∫ t in Set.Ioi x, normalPDF t := by
    rw [Phi]
    have h2 : ∫ t in Set.Iic (-x), normalPDF t = ∫ t in Set.Iic (-x), normalPDF (-t) := by
      refine setIntegral_congr_fun measurableSet_Iic fun t _ => (normalPDF_neg t).symm
    rw [h2, integral_comp_neg_Iic, neg_neg]
  have h3 : Phi x + ∫ t in Set.Ioi x, normalPDF t = 1 := by
    rw [Phi, intervalIntegral.integral_Iic_add_Ioi integrable_normalPDF.integrableOn
      integrable_normalPDF.integrableOn, integral_normalPDF]
  linarith [h3, h1]

lemma integrable_normalPDF_shift (c : ℝ) : Integrable fun u : ℝ => normalPDF (u + c) := by
  have h := (MeasureTheory.measurePreserving_add_right volume c).integrable_comp
    continuous_normalPDF.aestronglyMeasurable
  exact h.mpr integrable_normalPDF

lemma Phi_shift (a c : ℝ) : Phi (a + c) = ∫ u in Set.Iic a, normalPDF (u + c) := by
  have A : MeasurableEmbedding fun x : ℝ => x + c :=
    (Homeomorph.addRight c).isClosedEmbedding.measurableEmbedding
  have h2 : ∫ y in Set.Iic (a + c), normalPDF y
        ∂(Measure.map (fun x : ℝ => x + c) volume)
      = ∫ u in Set.preimage (fun x : ℝ => x + c) (Set.Iic (a + c)), normalPDF (u + c) :=
    A.setIntegral_map normalPDF (Set.Iic (a + c))
  rw [(MeasureTheory.measurePreserving_add_right volume c).map_eq] at h2
  rw [Set.preimage_add_const_Iic, add_sub_cancel_right] at h2
  rw [Phi, h2]

lemma normalPDF_weight_le (X B c d u : ℝ) (hX : 0 < X) (hB : 0 < B) (hc : 0 < c)
    (hlog : Real.log (X / B) = c * d + c ^ 2 / 2) (hu : u ≤ d) :
    B * normalPDF u ≤ X * normalPDF (u + c) := by
  rw [normalPDF, normalPDF, ← mul_div_assoc, ← mul_div_assoc]
  rw [div_le_div_iff_of_pos_right sqrt_two_pi_pos]
  have hBe : B * Real.exp (-u ^ 2 / 2) = Real.exp (Real.log B + -u ^ 2 / 2) := by
    rw [Real.exp_add, Real.exp_log hB]
  have hXe : X * Real.exp (-(u + c) ^ 2 / 2) = Real.exp (Real.log X + -(u + c) ^ 2 / 2) := by
    rw [Real.exp_add, Real.exp_log hX]
  rw [hBe, hXe, Real.exp_le_exp]
  have hdiv : Real.log (X / B) = Real.log X - Real.log B := Real.log_div hX.ne' hB.ne'
  have huc : u * c ≤ d * c := mul_le_mul_of_nonneg_right hu hc.le
  nlinarith [hdiv, hlog, huc]

lemma price_core_nonneg (X B c d : ℝ) (hX : 0 < X) (hB : 0 < B) (hc : 0 < c)
    (hlog : Real.log (X / B) = c * d + c ^ 2 / 2) :
    0 ≤ X * Phi (d + c) - B * Phi d := by
  rw [Phi_shift d c, Phi]
  rw [← MeasureTheory.integral_mul_left, ← MeasureTheory.integral_mul_left]
  rw [← MeasureTheory.integral_sub
    (((integrable_normalPDF_shift c).const_mul X).integrableOn)
    ((integrable_normalPDF.const_mul B).integrableOn)]
  refine MeasureTheory.setIntegral_nonneg measurableSet_Iic fun u hu => ?_
  have := normalPDF_weight_le X B c d u hX hB hc hlog hu
  linarith

lemma calculate_price_callBranch (p : BlackScholes) (h : okNum p)
    (hk : p.option_type = "call") : calculate_price p = .ok (callFormula p) := by
  obtain ⟨h1, h2, h3, h4⟩ := h
  simp [calculate_price, h1, h2, h3, h4, hk, callFormula, d1, d2]

lemma calculate_price_putBranch (p : BlackScholes) (h : okNum p)
    (hk : p.option_type = "put") : calculate_price p = .ok (putFormula p) := by
  obtain ⟨h1, h2, h3, h4⟩ := h
  simp [calculate_price, h1, h2, h3, h4, hk, putFormula, d1, d2]

lemma calculate_price_badKind (p : BlackScholes) (h : okNum p)
    (hc : ¬p.option_type = "call") (hp : ¬p.option_type = "put") :
    calculate_price p = .error .unboundLocalError := by
  obtain ⟨h1, h2, h3, h4⟩ := h
  simp [calculate_price, h1, h2, h3, h4, hc, hp]

lemma okNum_of_valid (p : BlackScholes) (hS : 0 < p.S) (hK : 0 < p.K)
    (hT : 0 < p.T) (hv : 0 < p.vol) : okNum p := by
  refine ⟨hK.ne', ?_, ?_, ?_⟩
  · exact not_le.mpr (div_pos hS hK)
  · exact not_lt.mpr hT.le
  · exact (mul_pos hv (Real.sqrt_pos.mpr hT)).ne'

/-- The concrete scenario from the spec: S=100, K=100, T=2, r=0.05,
vol=0.05, a call. -/
noncomputable def sampleCall : BlackScholes :=
  { S := 100, K := 100, T := 2, r := 0.05, vol := 0.05, option_type := "call" }

/-- C1: for every `BlackScholes` record with S > 0, K > 0, T > 0 and
vol > 0, `calculate_price` succeeds and returns exactly the closed-form
Black-Scholes value: with `d1 = (ln(S/K) + (r + 0.5*vol^2)*T) /
(vol*sqrt(T))` and `d2 = d1 - vol*sqrt(T)`, the result is
`S*Phi(d1) - K*exp(-r*T)*Phi(d2)` for a call and
`K*exp(-r*T)*Phi(-d2) - S*Phi(-d1)` for a put, where `Phi` is the
standard normal CDF. -/
theorem blackScholes_price_closed_form (p : BlackScholes)
    (hS : 0 < p.S) (hK : 0 < p.K) (hT : 0 < p.T) (hv : 0 < p.vol) :
    (p.option_type = "call" →
      calculate_price p =
        .ok (p.S * Phi (d1 p) - p.K * Real.exp (-p.r * p.T) * Phi (d2 p))) ∧
    (p.option_type = "put" →
      calculate_price p =
        .ok (p.K * Real.exp (-p.r * p.T) * Phi (-(d2 p)) -
          p.S * Phi (-(d1 p)))) ∧
    d1 p = (Real.log (p.S / p.K) + (p.r + 0.5 * p.vol ^ 2) * p.T) /
      (p.vol * Real.sqrt p.T) ∧
    d2 p = d1 p - p.vol * Real.sqrt p.T := by
  have hnum := okNum_of_valid p hS hK hT hv
  refine ⟨fun hk => ?_, fun hk => ?_, rfl, rfl⟩
  · rw [calculate_price_callBranch p hnum hk, callFormula]
  · rw [calculate_price_putBranch p hnum hk, putFormula]

theorem blackScholes_price_closed_form_witness :
    calculate_price sampleCall =
      .ok (sampleCall.S * Phi (d1 sampleCall) -
        sampleCall.K * Real.exp (-sampleCall.r * sampleCall.T) *
          Phi (d2 sampleCall)) :=
  (blackScholes_price_closed_form sampleCall (by norm_num [sampleCall])
    (by norm_num [sampleCall]) (by norm_num [sampleCall])
    (by norm_num [sampleCall])).1 rfl

/-- C8: put-call parity.  For any record with S > 0, K > 0, T > 0,
vol > 0 and any rate, if the call variant prices to `c` and the put
variant prices to `q`, then `c - q = S - K*exp(-r*T)` exactly (the
real-valued model has no rounding, so the floating-point tolerance of
the claim is met with slack zero). -/
theorem put_call_parity (p : BlackScholes)
    (hS : 0 < p.S) (hK : 0 < p.K) (hT : 0 < p.T) (hv : 0 < p.vol) :
    ∀ c q : ℝ,
      calculate_price { p with option_type := "call" } = .ok c →
      calculate_price { p with option_type := "put" } = .ok q →
      c - q = p.S - p.K * Real.exp (-p.r * p.T) := by
  intro c q hc hq
  have hnum : okNum { p with option_type := "call" } :=
    okNum_of_valid _ hS hK hT hv
  have hnum2 : okNum { p with option_type := "put" } :=
    okNum_of_valid _ hS hK hT hv
  rw [calculate_price_callBranch _ hnum rfl] at hc
  rw [calculate_price_putBranch _ hnum2 rfl] at hq
  have hc2 : c = callFormula { p with option_type := "call" } :=
    (Except.ok.injEq _ _ ▸ hc).symm
  have hq2 : q = putFormula { p with option_type := "put" } :=
    (Except.ok.injEq _ _ ▸ hq).symm
  rw [hc2, hq2]
  simp only [callFormula, putFormula, d1, d2]
  rw [Phi_neg, Phi_neg]
  ring

theorem put_call_parity_witness :
    callFormula { sampleCall with option_type := "call" } -
      putFormula { sampleCall with option_type := "put" } =
    sampleCall.S - sampleCall.K * Real.exp (-sampleCall.r * sampleCall.T) :=
  put_call_parity sampleCall (by norm_num [sampleCall])
    (by norm_num [sampleCall]) (by norm_num [sampleCall])
    (by norm_num [sampleCall]) _ _
    (calculate_price_callBranch _ (okNum_of_valid _ (by norm_num [sampleCall])
      (by norm_num [sampleCall]) (by norm_num [sampleCall])
      (by norm_num [sampleCall])) rfl)
    (calculate_price_putBranch _ (okNum_of_valid _ (by norm_num [sampleCall])
      (by norm_num [sampleCall]) (by norm_num [sampleCall])
      (by norm_num [sampleCall])) rfl)

lemma cd1_identity (p : BlackScholes) (hT : 0 < p.T) (hv : 0 < p.vol) :
    (p.vol * Real.sqrt p.T) * d1 p =
      Real.log (p.S / p.K) + (p.r + 0.5 * p.vol ^ 2) * p.T := by
  have hc : p.vol * Real.sqrt p.T ≠ 0 :=
    (mul_pos hv (Real.sqrt_pos.mpr hT)).ne'
  rw [d1, mul_div_cancel₀ _ hc]

lemma csq_identity (p : BlackScholes) (hT : 0 < p.T) :
    (p.vol * Real.sqrt p.T) ^ 2 = p.vol ^ 2 * p.T := by
  rw [mul_pow, Real.sq_sqrt hT.le]

/-- C9: for every valid parameter record (S, K, T, vol all positive and
a recognized option kind), `calculate_price` succeeds and the price is a
(finite, since the model is real-valued) non-negative number. -/
theorem price_nonneg (p : BlackScholes) (hkind : okKind p)
    (hS : 0 < p.S) (hK : 0 < p.K) (hT : 0 < p.T) (hv : 0 < p.vol) :
    calculate_price p = .ok (priceVal p) ∧ 0 ≤ priceVal p := by
  have hnum := okNum_of_valid p hS hK hT hv
  have hc : 0 < p.vol * Real.sqrt p.T := mul_pos hv (Real.sqrt_pos.mpr hT)
  have hB : 0 < p.K * Real.exp (-p.r * p.T) := mul_pos hK (Real.exp_pos _)
  have hcd1 := cd1_identity p hT hv
  have hcsq := csq_identity p hT
  have hlogSK : Real.log (p.S / p.K) = Real.log p.S - Real.log p.K :=
    Real.log_div hS.ne' hK.ne'
  have hlogB : Real.log (p.K * Real.exp (-p.r * p.T)) =
      Real.log p.K + -p.r * p.T := by
    rw [Real.log_mul hK.ne' (Real.exp_pos _).ne', Real.log_exp]
  have hd1d2 : d1 p = d2 p + p.vol * Real.sqrt p.T := by rw [d2]; ring
  rcases hkind with hk | hk
  · have hval : priceVal p = callFormula p := by rw [priceVal, if_pos hk]
    refine ⟨by rw [calculate_price_callBranch p hnum hk, hval], ?_⟩
    rw [hval, callFormula, hd1d2]
    have hlog : Real.log (p.S / (p.K * Real.exp (-p.r * p.T))) =
        (p.vol * Real.sqrt p.T) * d2 p + (p.vol * Real.sqrt p.T) ^ 2 / 2 := by
      rw [Real.log_div hS.ne' hB.ne', hlogB, d2]
      nlinarith [hcd1, hcsq]
    have := price_core_nonneg p.S (p.K * Real.exp (-p.r * p.T))
      (p.vol * Real.sqrt p.T) (d2 p) hS hB hc hlog
    linarith
  · have hk2 : ¬p.option_type = "call" := by rw [hk]; simp
    have hval : priceVal p = putFormula p := by rw [priceVal, if_neg hk2]
    refine ⟨by rw [calculate_price_putBranch p hnum hk, hval], ?_⟩
    rw [hval, putFormula]
    have hnegd2 : -(d2 p) = -(d1 p) + p.vol * Real.sqrt p.T := by rw [d2]; ring
    have hlog : Real.log (p.K * Real.exp (-p.r * p.T) / p.S) =
        (p.vol * Real.sqrt p.T) * (-(d1 p)) +
          (p.vol * Real.sqrt p.T) ^ 2 / 2 := by
      rw [Real.log_div hB.ne' hS.ne', hlogB]
      nlinarith [hcd1, hcsq, hlogSK]
    have := price_core_nonneg (p.K * Real.exp (-p.r * p.T)) p.S
      (p.vol * Real.sqrt p.T) (-(d1 p)) hB hS hc hlog
    rw [hnegd2]
    linarith

theorem price_nonneg_witness :
    calculate_price sampleCall = .ok (priceVal sampleCall) ∧
      0 ≤ priceVal sampleCall :=
  price_nonneg sampleCall (Or.inl rfl) (by norm_num [sampleCall])
    (by norm_num [sampleCall]) (by norm_num [sampleCall])
    (by norm_num [sampleCall])

lemma getLastD_ne_nil (l : List ℝ) (d e : ℝ) (h : l ≠ []) :
    l.getLastD d = l.getLastD e := by
  cases l with
  | nil => exact absurd rfl h
  | cons a t => rw [List.getLastD_cons, List.getLastD_cons]

lemma getLastD_eq_getD (l : List ℝ) (d : ℝ) :
    l.getLastD d = l.getD (l.length - 1) d := by
  induction l with
  | nil => rfl
  | cons a t ih =>
    rw [List.getLastD_cons]
    cases t with
    | nil => rfl
    | cons b u =>
      rw [getLastD_ne_nil _ a d (by simp), ih]
      simp [List.getD_cons_succ]

lemma getD_map_range (f : ℕ → ℝ) (n i : ℕ) (hi : i < n) :
    ((List.range n).map f).getD i 0 = f i := by
  simp [List.getD_eq_getElem?_getD, List.getElem?_map, List.getElem?_range hi]

lemma getD_map_lt (f : ℝ → List ℝ) (l : List ℝ) (i : ℕ) (hi : i < l.length) :
    (l.map f).getD i [] = f (l.getD i 0) := by
  rw [List.getD_eq_getElem?_getD, List.getD_eq_getElem?_getD, List.getElem?_map]
  rw [List.getElem?_eq_getElem hi]
  simp

lemma calculate_price_ok_of (q : BlackScholes) (hnum : okNum q) (hk : okKind q) :
    calculate_price q = .ok (priceVal q) := by
  rcases hk with h | h
  · rw [calculate_price_callBranch _ hnum h, priceVal, if_pos h]
  · have h2 : ¬q.option_type = "call" := by rw [h]; simp
    rw [calculate_price_putBranch _ hnum h, priceVal, if_neg h2]

lemma fillRow_char (pp : ℝ) :
    ∀ (l : List ℝ) (acc : List ℝ) (q : BlackScholes),
    okKind q → (∀ s ∈ l, okNum { q with S := s }) →
    fillRow pp acc q l =
      .ok (acc ++ l.map (fun s => priceVal { q with S := s } - pp),
        { q with S := l.getLastD q.S }) := by
  intro l
  induction l with
  | nil => intro acc q _ _; simp [fillRow]
  | cons s rest ih =>
    intro acc q hk hok
    have hnum : okNum { q with S := s } := hok s (List.mem_cons_self s rest)
    have hkq : okKind { q with S := s } := hk
    rw [fillRow, calculate_price_ok_of _ hnum hkq]
    have hstep := ih (acc ++ [priceVal { q with S := s } - pp]) { q with S := s } hkq
      (fun t ht => hok t (List.mem_cons_of_mem s ht))
    refine hstep.trans ?_
    have hlast : rest.getLastD s = (s :: rest).getLastD q.S := by
      rw [List.getLastD_cons]
    simp only [List.map_cons, List.append_assoc, List.singleton_append,
      Except.ok.injEq, Prod.mk.injEq]
    exact ⟨trivial, by rw [hlast]⟩

lemma fillGrid_char (pp : ℝ) (sR : List ℝ) (hsR : sR ≠ []) :
    ∀ (vl : List ℝ) (acc : List (List ℝ)) (q : BlackScholes),
    okKind q → (∀ v ∈ vl, ∀ s ∈ sR, okNum { q with S := s, vol := v }) →
    vl ≠ [] →
    fillGrid pp sR acc q vl =
      .ok (acc ++ vl.map (fun v => sR.map
          (fun s => priceVal { q with S := s, vol := v } - pp)),
        { q with S := sR.getLastD 0, vol := vl.getLastD 0 }) := by
  intro vl
  induction vl with
  | nil => intro acc q _ _ hne; exact absurd rfl hne
  | cons v rest ih =>
    intro acc q hk hok _
    have hrow := fillRow_char pp sR [] { q with vol := v } hk
      (fun s hs => hok v (List.mem_cons_self v rest) s hs)
    rw [fillGrid, hrow]
    dsimp only
    have hS : sR.getLastD ({ q with vol := v } : BlackScholes).S = sR.getLastD 0 :=
      getLastD_ne_nil sR _ 0 hsR
    cases rest with
    | nil =>
      rw [fillGrid]
      simp only [List.nil_append, List.map_cons, List.map_nil, Except.ok.injEq,
        Prod.mk.injEq, List.append_assoc, List.singleton_append]
      refine ⟨trivial, ?_⟩
      rw [hS]
      rfl
    | cons w rest2 =>
      have hstep := ih (acc ++ [[] ++ sR.map
          (fun s => priceVal { q with S := s, vol := v } - pp)])
        { ({ q with vol := v } : BlackScholes) with S := sR.getLastD ({ q with vol := v } : BlackScholes).S }
        hk (fun u hu s hs => hok u (List.mem_cons_of_mem v hu) s hs)
        (by simp)
      refine hstep.trans ?_
      simp only [List.nil_append, List.map_cons, Except.ok.injEq, Prod.mk.injEq,
        List.append_assoc, List.singleton_append]
      refine ⟨trivial, ?_⟩
      have hvol : (v :: w :: rest2).getLastD 0 = (w :: rest2).getLastD 0 := by
        rw [List.getLastD_cons]
        exact getLastD_ne_nil _ v 0 (by simp)
      rw [hvol]

lemma linspace_length (a b : ℝ) (n : ℕ) : (linspace a b n).length = n := by
  rw [linspace, List.length_map, List.length_range]

lemma linspace_ten_ne_nil (a b : ℝ) : linspace a b 10 ≠ [] := by
  intro h
  have hlen := linspace_length a b 10
  rw [h] at hlen
  simp at hlen

lemma linspace_getD (a b : ℝ) (i : ℕ) (hi : i < 10) :
    (linspace a b 10).getD i 0 = a + (b - a) * i / 9 := by
  rw [linspace, getD_map_range _ 10 i hi]
  norm_num

lemma linspace_getLastD (a b e : ℝ) : (linspace a b 10).getLastD e = b := by
  rw [getLastD_ne_nil _ e 0 (linspace_ten_ne_nil a b), getLastD_eq_getD,
    linspace_length]
  rw [show (10 : ℕ) - 1 = 9 from rfl, linspace_getD a b 9 (by norm_num)]
  push_cast
  ring

lemma linspace_mem_bounds (a b x : ℝ) (hab : a ≤ b) (hx : x ∈ linspace a b 10) :
    a ≤ x ∧ x ≤ b := by
  rw [linspace] at hx
  obtain ⟨i, hi, rfl⟩ := List.mem_map.mp hx
  have hi10 : i < 10 := List.mem_range.mp hi
  have h9 : (i : ℝ) ≤ 9 := by exact_mod_cast Nat.lt_succ_iff.mp hi10
  have h0 : (0 : ℝ) ≤ i := Nat.cast_nonneg i
  norm_num
  constructor <;> nlinarith

lemma generate_plot_char (p : BlackScholes) (a b c e pp : ℝ) (hk : okKind p)
    (hok : ∀ v ∈ linspace c e 10, ∀ s ∈ linspace a b 10,
      okNum { p with S := s, vol := v }) :
    generate_plot p a b c e pp =
      .ok ((linspace c e 10).map (fun v => (linspace a b 10).map
          (fun s => priceVal { p with S := s, vol := v } - pp)),
        { p with S := b, vol := e }) := by
  have h := fillGrid_char pp (linspace a b 10) (linspace_ten_ne_nil a b)
    (linspace c e 10) [] p hk hok (linspace_ten_ne_nil c e)
  refine h.trans ?_
  rw [linspace_getLastD, linspace_getLastD]
  simp

lemma getD_mem_of_lt (l : List ℝ) (i : ℕ) (h : i < l.length) : l.getD i 0 ∈ l := by
  rw [List.getD_eq_getElem?_getD, List.getElem?_eq_getElem h]
  exact List.getElem_mem h

lemma getD_map_lt_r (f : ℝ → ℝ) (l : List ℝ) (i : ℕ) (hi : i < l.length) :
    (l.map f).getD i 0 = f (l.getD i 0) := by
  rw [List.getD_eq_getElem?_getD, List.getD_eq_getElem?_getD, List.getElem?_map]
  rw [List.getElem?_eq_getElem hi]
  simp

/-- C2: for every parameter record with a recognized kind, every pair of
range bounds whose sample grids stay inside the pricing domain, and
every purchase price, cell `[i][j]` of the matrix produced by
`generate_plot` equals the price computed by `calculate_price` for the
input record with `S` replaced by the `j`-th spot sample and `vol`
replaced by the `i`-th volatility sample (strike, time, rate and kind
held from the input), minus the purchase price. -/
theorem generate_plot_cell_reconciliation (p : BlackScholes)
    (Smin Smax vmin vmax pp : ℝ) (hk : okKind p)
    (hok : ∀ v ∈ linspace vmin vmax 10, ∀ s ∈ linspace Smin Smax 10,
      okNum { p with S := s, vol := v })
    (i j : ℕ) (hi : i < 10) (hj : j < 10) :
    Except.map (fun x => (x.1.getD i []).getD j 0)
        (generate_plot p Smin Smax vmin vmax pp) =
      Except.map (fun v => v - pp)
        (calculate_price
          { p with
            S := List.getD (linspace Smin Smax 10) j 0,
            vol := List.getD (linspace vmin vmax 10) i 0 }) := by
  have hiv : i < (linspace vmin vmax 10).length := by
    rw [linspace_length]; exact hi
  have hjs : j < (linspace Smin Smax 10).length := by
    rw [linspace_length]; exact hj
  have hnum := hok _ (getD_mem_of_lt _ i hiv) _ (getD_mem_of_lt _ j hjs)
  rw [generate_plot_char p Smin Smax vmin vmax pp hk hok,
    calculate_price_ok_of _ hnum hk]
  simp only [Except.map]
  rw [getD_map_lt _ _ i hiv, getD_map_lt_r _ _ j hjs]

lemma sample_grid_ok : ∀ v ∈ linspace 4 5 10, ∀ s ∈ linspace 2 3 10,
    okNum { sampleCall with S := s, vol := v } := by
  intro v hv s hs
  have hb1 := linspace_mem_bounds 4 5 v (by norm_num) hv
  have hb2 := linspace_mem_bounds 2 3 s (by norm_num) hs
  have hvpos : (0 : ℝ) < v := by linarith [hb1.1]
  have hspos : (0 : ℝ) < s := by linarith [hb2.1]
  exact okNum_of_valid _ (by simpa [sampleCall] using hspos)
    (by norm_num [sampleCall]) (by norm_num [sampleCall])
    (by simpa [sampleCall] using hvpos)

/-- The PnL matrix of the concrete `generate_plot` run used as a
witness: spot range `[2, 3]`, volatility range `[4, 5]`, purchase
price `0`, on `sampleCall`. -/
noncomputable def sampleMatrix : List (List ℝ) :=
  (linspace 4 5 10).map fun v => (linspace 2 3 10).map
    fun s => priceVal { sampleCall with S := s, vol := v } - 0

/-- The final mutated state of that concrete run. -/
noncomputable def sampleFinal : BlackScholes :=
  { sampleCall with S := 3, vol := 5 }

lemma gen_concrete :
    generate_plot sampleCall 2 3 4 5 0 = .ok (sampleMatrix, sampleFinal) := by
  have h := generate_plot_char sampleCall 2 3 4 5 0 (Or.inl rfl) sample_grid_ok
  simpa [sampleMatrix, sampleFinal] using h

theorem generate_plot_cell_reconciliation_witness :
    Except.map (fun x => ((x.1.getD 1 []).getD 2 0))
        (generate_plot sampleCall 2 3 4 5 0) =
      Except.map (fun v => v - 0)
        (calculate_price
          { sampleCall with
            S := List.getD (linspace 2 3 10) 2 0,
            vol := List.getD (linspace 4 5 10) 1 0 }) :=
  generate_plot_cell_reconciliation sampleCall 2 3 4 5 0 (Or.inl rfl)
    sample_grid_ok 1 2 (by norm_num) (by norm_num)

lemma fillRow_ok_length (pp : ℝ) :
    ∀ (l acc : List ℝ) (q : BlackScholes) (res : List ℝ) (st : BlackScholes),
    fillRow pp acc q l = .ok (res, st) → res.length = acc.length + l.length := by
  intro l
  induction l with
  | nil =>
    intro acc q res st h
    simp only [fillRow, Except.ok.injEq, Prod.mk.injEq] at h
    rw [← h.1]
    simp
  | cons s rest ih =>
    intro acc q res st h
    rw [fillRow] at h
    cases hm : calculate_price { q with S := s } with
    | error e => rw [hm] at h; simp at h
    | ok v =>
      rw [hm] at h
      dsimp only at h
      have hlen := ih (acc ++ [v - pp]) { q with S := s } res st h
      rw [hlen]
      simp
      omega
  
lemma fillGrid_ok_shape (pp : ℝ) (sR : List ℝ) :
    ∀ (vl : List ℝ) (acc M : List (List ℝ)) (q st : BlackScholes),
    fillGrid pp sR acc q vl = .ok (M, st) →
    M.length = acc.length + vl.length ∧
      ∀ row ∈ M, row ∈ acc ∨ row.length = sR.length := by
  intro vl
  induction vl with
  | nil =>
    intro acc M q st h
    simp only [fillGrid, Except.ok.injEq, Prod.mk.injEq] at h
    rw [← h.1]
    exact ⟨by simp, fun row hr => Or.inl hr⟩
  | cons v rest ih =>
    intro acc M q st h
    rw [fillGrid] at h
    cases hm : fillRow pp [] { q with vol := v } sR with
    | error e => rw [hm] at h; simp at h
    | ok rp =>
      rw [hm] at h
      dsimp only at h
      have hm2 : fillRow pp [] { q with vol := v } sR = .ok (rp.1, rp.2) := by
        rw [hm]
      have hlen := fillRow_ok_length pp sR [] { q with vol := v } rp.1 rp.2 hm2
      have hres := ih (acc ++ [rp.1]) M rp.2 st h
      refine ⟨by rw [hres.1]; simp; omega, fun row hr => ?_⟩
      rcases hres.2 row hr with hin | hl
      · rcases List.mem_append.mp hin with h1 | h2
        · exact Or.inl h1
        · right
          have hrow : row = rp.1 := by simpa using h2
          rw [hrow, hlen]
          simp
      · exact Or.inr hl

/-- C6: each axis sequence produced by `np.linspace(min, max, 10)` has
length 10 (the hard-coded sample count), starts at `min`, ends at `max`,
advances in `(max - min)/9` steps (9 equal intervals), and is monotone
non-decreasing whenever `min ≤ max`; and whenever `generate_plot`
returns a matrix, that matrix has exactly 10 rows of 10 cells each. -/
theorem generate_grid_shape_and_labels (a b c e pp : ℝ) (p : BlackScholes) :
    (linspace a b 10).length = 10 ∧
    (linspace a b 10).getD 0 0 = a ∧
    (linspace a b 10).getD 9 0 = b ∧
    (∀ i : ℕ, i + 1 < 10 →
      (linspace a b 10).getD (i + 1) 0 - (linspace a b 10).getD i 0 =
        (b - a) / 9) ∧
    (a ≤ b → ∀ i j : ℕ, i ≤ j → j < 10 →
      (linspace a b 10).getD i 0 ≤ (linspace a b 10).getD j 0) ∧
    (∀ M st, generate_plot p a b c e pp = .ok (M, st) →
      M.length = 10 ∧ ∀ row ∈ M, row.length = 10) := by
  refine ⟨linspace_length a b 10, ?_, ?_, ?_, ?_, ?_⟩
  · rw [linspace_getD a b 0 (by norm_num)]
    norm_num
  · rw [linspace_getD a b 9 (by norm_num)]
    push_cast
    ring
  · intro i hi
    rw [linspace_getD a b (i + 1) hi, linspace_getD a b i (by omega)]
    push_cast
    ring
  · intro hab i j hij hj
    rw [linspace_getD a b i (by omega), linspace_getD a b j hj]
    have hcast : (i : ℝ) ≤ (j : ℝ) := by exact_mod_cast hij
    have hmul : (b - a) * (i : ℝ) ≤ (b - a) * (j : ℝ) :=
      mul_le_mul_of_nonneg_left hcast (sub_nonneg.mpr hab)
    have hdiv : (b - a) * (i : ℝ) / 9 ≤ (b - a) * (j : ℝ) / 9 :=
      (div_le_div_iff_of_pos_right (by norm_num)).mpr hmul
    linarith
  · intro M st h
    have h2 : fillGrid pp (linspace a b 10) [] p (linspace c e 10) =
        .ok (M, st) := h
    have hshape := fillGrid_ok_shape pp (linspace a b 10) (linspace c e 10)
      [] M p st h2
    refine ⟨by rw [hshape.1]; simp [linspace_length], fun row hr => ?_⟩
    rcases hshape.2 row hr with hin | hl
    · exact absurd hin (List.not_mem_nil row)
    · rw [hl, linspace_length]

theorem generate_grid_shape_and_labels_witness :
    (linspace 2 3 10).getD 9 0 = 3 ∧
    (linspace 2 3 10).getD 0 0 ≤ (linspace 2 3 10).getD 9 0 ∧
    sampleMatrix.length = 10 ∧ ∀ row ∈ sampleMatrix, row.length = 10 := by
  obtain ⟨h1, h2, h3, h4, h5, h6⟩ :=
    generate_grid_shape_and_labels 2 3 4 5 0 sampleCall
  exact ⟨h3, h5 (by norm_num) 0 9 (by norm_num) (by norm_num),
    h6 sampleMatrix sampleFinal gen_concrete⟩

lemma fillRow_ok_state (pp : ℝ) :
    ∀ (l acc : List ℝ) (q : BlackScholes) (res : List ℝ) (st : BlackScholes),
    fillRow pp acc q l = .ok (res, st) → st = { q with S := l.getLastD q.S } := by
  intro l
  induction l with
  | nil =>
    intro acc q res st h
    simp only [fillRow, Except.ok.injEq, Prod.mk.injEq] at h
    rw [← h.2]
    rfl
  | cons s rest ih =>
    intro acc q res st h
    rw [fillRow] at h
    cases hm : calculate_price { q with S := s } with
    | error e => rw [hm] at h; simp at h
    | ok v =>
      rw [hm] at h
      dsimp only at h
      have hst := ih (acc ++ [v - pp]) { q with S := s } res st h
      rw [hst, List.getLastD_cons]

lemma fillGrid_ok_state (pp : ℝ) (sR : List ℝ) (hsR : sR ≠ []) :
    ∀ (vl : List ℝ) (acc M : List (List ℝ)) (q st : BlackScholes),
    fillGrid pp sR acc q vl = .ok (M, st) → vl ≠ [] →
    st = { q with S := sR.getLastD 0, vol := vl.getLastD 0 } := by
  intro vl
  induction vl with
  | nil => intro acc M q st _ hne; exact absurd rfl hne
  | cons v rest ih =>
    intro acc M q st h _
    rw [fillGrid] at h
    cases hm : fillRow pp [] { q with vol := v } sR with
    | error e => rw [hm] at h; simp at h
    | ok rp =>
      rw [hm] at h
      dsimp only at h
      have hm2 : fillRow pp [] { q with vol := v } sR = .ok (rp.1, rp.2) := by
        rw [hm]
      have hrp := fillRow_ok_state pp sR [] { q with vol := v } rp.1 rp.2 hm2
      cases rest with
      | nil =>
        simp only [fillGrid, Except.ok.injEq, Prod.mk.injEq] at h
        rw [← h.2, hrp]
        rw [getLastD_ne_nil sR _ 0 hsR]
        rfl
      | cons w rest2 =>
        have hst := ih (acc ++ [rp.1]) M rp.2 st h (by simp)
        rw [hst, hrp]
        rw [getLastD_ne_nil sR _ 0 hsR]
        have hvol : (v :: w :: rest2).getLastD 0 = (w :: rest2).getLastD 0 := by
          rw [List.getLastD_cons]
          exact getLastD_ne_nil _ v 0 (by simp)
        rw [hvol]

/-- The state-passing form of `calculate_price`: the method body assigns
only the locals `d1`, `d2`, `price` and never writes an attribute of
`self`, so the record comes back unchanged alongside the value. -/
noncomputable def calculate_price_run (p : BlackScholes) :
    Except PyErr (ℝ × BlackScholes) :=
  Except.map (fun v => (v, p)) (calculate_price p)

/-- C3 counterexample: `generate_plot` is not side-effect-free — after
the concrete run on `sampleCall` (S = 100) with spot range `[2, 3]`,
the `S` attribute of the object has been overwritten with 3, the last spot
sample. -/
theorem generate_plot_mutates_state_cex :
    Except.map (fun x => x.2.S) (generate_plot sampleCall 2 3 4 5 0) =
      .ok 3 ∧ sampleCall.S = 100 := by
  constructor
  · rw [gen_concrete]
    rfl
  · rfl

/-- C3 (amended): `calculate_price` leaves all six attributes unchanged,
but `generate_plot` does not: on success its loops leave `S` set to the
last spot sample (`S_max`) and `vol` set to the last volatility sample
(`vol_max`), while `K`, `T`, `r` and `option_type` are unchanged — so
this state does carry over to later invocations on the same object. -/
theorem generate_plot_state_effect (p : BlackScholes) (a b c e pp : ℝ) :
    (∀ v st, calculate_price_run p = .ok (v, st) → st = p) ∧
    (∀ M st, generate_plot p a b c e pp = .ok (M, st) →
      st = { p with S := b, vol := e }) := by
  constructor
  · intro v st h
    cases hm : calculate_price p with
    | error e2 => rw [calculate_price_run, hm] at h; simp [Except.map] at h
    | ok w =>
      rw [calculate_price_run, hm] at h
      simp only [Except.map, Except.ok.injEq, Prod.mk.injEq] at h
      exact h.2.symm
  · intro M st h
    have h2 : fillGrid pp (linspace a b 10) [] p (linspace c e 10) =
        .ok (M, st) := h
    have hst := fillGrid_ok_state pp (linspace a b 10)
      (linspace_ten_ne_nil a b) (linspace c e 10) [] M p st h2
      (linspace_ten_ne_nil c e)
    rw [hst, linspace_getLastD, linspace_getLastD]

theorem generate_plot_state_effect_witness :
    sampleFinal = { sampleCall with S := 3, vol := 5 } :=
  (generate_plot_state_effect sampleCall 2 3 4 5 0).2 sampleMatrix
    sampleFinal gen_concrete

lemma fillGrid_ignores_S_vol (pp : ℝ) (sR vl : List ℝ)
    (acc : List (List ℝ)) (q1 q2 : BlackScholes) (hK : q1.K = q2.K)
    (hT : q1.T = q2.T) (hr : q1.r = q2.r)
    (ho : q1.option_type = q2.option_type) (hsR : sR ≠ []) (hvl : vl ≠ []) :
    fillGrid pp sR acc q1 vl = fillGrid pp sR acc q2 vl := by
  obtain ⟨s1, k1, t1, r1, v1, o1⟩ := q1
  obtain ⟨s2, k2, t2, r2, v2, o2⟩ := q2
  simp only at hK hT hr ho
  subst hK
  subst hT
  subst hr
  subst ho
  obtain ⟨v, rest, rfl⟩ := List.exists_cons_of_ne_nil hvl
  obtain ⟨s, rl, rfl⟩ := List.exists_cons_of_ne_nil hsR
  rw [fillGrid, fillGrid]
  have hrow : fillRow pp [] ⟨s1, k1, t1, r1, v, o1⟩ (s :: rl) =
      fillRow pp [] ⟨s2, k1, t1, r1, v, o1⟩ (s :: rl) := by
    rw [fillRow, fillRow]
  rw [hrow]

/-- C10: determinism.  `calculate_price` is a pure function of the
record, and `generate_plot` run a second time — even from the state the
first run mutated — returns the identical matrix and state, because
every grid cell overwrites both `S` and `vol` before pricing and the
final state is again the last grid point.  No hidden state influences
either result. -/
theorem price_generate_deterministic (p : BlackScholes) (a b c e pp : ℝ) :
    calculate_price p = calculate_price p ∧
    ∀ M st, generate_plot p a b c e pp = .ok (M, st) →
      generate_plot st a b c e pp = .ok (M, st) := by
  refine ⟨rfl, fun M st h => ?_⟩
  have h2 : fillGrid pp (linspace a b 10) [] p (linspace c e 10) =
      .ok (M, st) := h
  have hst := fillGrid_ok_state pp (linspace a b 10)
    (linspace_ten_ne_nil a b) (linspace c e 10) [] M p st h2
    (linspace_ten_ne_nil c e)
  have hdet : fillGrid pp (linspace a b 10) [] st (linspace c e 10) =
      fillGrid pp (linspace a b 10) [] p (linspace c e 10) :=
    fillGrid_ignores_S_vol pp (linspace a b 10) (linspace c e 10) [] st p
      (by rw [hst]) (by rw [hst]) (by rw [hst]) (by rw [hst])
      (linspace_ten_ne_nil a b) (linspace_ten_ne_nil c e)
  show fillGrid pp (linspace a b 10) [] st (linspace c e 10) = .ok (M, st)
  rw [hdet, h2]

theorem price_generate_deterministic_witness :
    generate_plot sampleFinal 2 3 4 5 0 = .ok (sampleMatrix, sampleFinal) :=
  (price_generate_deterministic sampleCall 2 3 4 5 0).2 sampleMatrix
    sampleFinal gen_concrete

/-- Parameters with `T = 0` (the headline invalid input of the spec). -/
noncomputable def tZeroParams : BlackScholes :=
  { S := 100, K := 100, T := 0, r := 0.05, vol := 0.05, option_type := "call" }

/-- Parameters with a negative volatility but everything else valid. -/
noncomputable def negVolParams : BlackScholes :=
  { S := 100, K := 100, T := 2, r := 0.05, vol := -1, option_type := "put" }

/-- Parameters with `K = 0`. -/
noncomputable def kZeroParams : BlackScholes :=
  { S := 100, K := 0, T := 2, r := 0.05, vol := 0.05, option_type := "call" }

/-- C4 counterexample: with `T = 0` the code raises `ZeroDivisionError`
— a low-level arithmetic fault, not a typed `InvalidParameter` — and
with `vol = -1` (an invalid input per the claim) it silently returns a
price instead of raising anything. -/
theorem invalid_params_low_level_cex :
    calculate_price tZeroParams = .error .zeroDivisionError ∧
    calculate_price negVolParams = .ok (priceVal negVolParams) := by
  constructor
  · norm_num [calculate_price, tZeroParams, Real.sqrt_zero]
  · refine calculate_price_ok_of _ ⟨?_, ?_, ?_, ?_⟩ (Or.inr rfl)
    · norm_num [negVolParams]
    · norm_num [negVolParams]
    · norm_num [negVolParams]
    · have hs : (0 : ℝ) < Real.sqrt 2 := Real.sqrt_pos.mpr (by norm_num)
      have hneg : (-1 : ℝ) * Real.sqrt 2 < 0 := by nlinarith
      have hgoal : negVolParams.vol * Real.sqrt negVolParams.T =
          -1 * Real.sqrt 2 := by norm_num [negVolParams]
      rw [hgoal]
      exact hneg.ne

/-- C4 (amended): the code performs no validation and never raises a
typed `InvalidParameter`.  Instead: `K = 0` raises `ZeroDivisionError`
(from `S/K`); `S/K ≤ 0` (e.g. `S ≤ 0` with `K > 0`) raises `ValueError`
(from `math.log`); `T = 0` and `vol = 0` raise `ZeroDivisionError`
(division by `vol*sqrt(T) = 0`); these low-level faults do occur before
the formula is evaluated.  But `vol < 0` with `T > 0` passes every
guard and silently produces a value. -/
theorem invalid_params_actual_behavior (p : BlackScholes) :
    (p.K = 0 → calculate_price p = .error .zeroDivisionError) ∧
    (p.S / p.K ≤ 0 → ¬p.K = 0 → calculate_price p = .error .valueError) ∧
    (p.T = 0 → ¬p.K = 0 → ¬p.S / p.K ≤ 0 →
      calculate_price p = .error .zeroDivisionError) ∧
    (p.vol = 0 → ¬p.K = 0 → ¬p.S / p.K ≤ 0 → ¬p.T < 0 →
      calculate_price p = .error .zeroDivisionError) ∧
    (p.vol < 0 → 0 < p.T → ¬p.K = 0 → ¬p.S / p.K ≤ 0 → okKind p →
      calculate_price p = .ok (priceVal p)) := by
  refine ⟨fun h1 => ?_, fun h2 h1 => ?_, fun h3 h1 h2 => ?_,
    fun h4 h1 h2 h3 => ?_, fun h5 hT h1 h2 hk => ?_⟩
  · simp [calculate_price, h1]
  · simp [calculate_price, h1, h2]
  · simp [calculate_price, h1, h2, h3, Real.sqrt_zero]
  · simp [calculate_price, h1, h2, h3, h4]
  · have hne : ¬p.vol * Real.sqrt p.T = 0 :=
      (mul_neg_of_neg_of_pos h5 (Real.sqrt_pos.mpr hT)).ne
    exact calculate_price_ok_of p ⟨h1, h2, not_lt.mpr hT.le, hne⟩ hk

theorem invalid_params_actual_behavior_witness :
    calculate_price kZeroParams = .error .zeroDivisionError ∧
    calculate_price negVolParams = .ok (priceVal negVolParams) :=
  ⟨(invalid_params_actual_behavior kZeroParams).1 rfl,
   (invalid_params_actual_behavior negVolParams).2.2.2.2
     (by norm_num [negVolParams]) (by norm_num [negVolParams])
     (by norm_num [negVolParams]) (by norm_num [negVolParams])
     (Or.inr rfl)⟩

/-- A kind value outside the recognized set, on otherwise valid
parameters. -/
noncomputable def straddleParams : BlackScholes :=
  { sampleCall with option_type := "straddle" }

/-- C5 counterexample: an unrecognized kind makes `calculate_price`
raise `UnboundLocalError` (the local `price` was never assigned) — an
untyped accident of control flow, not a typed `UnsupportedOptionKind`
error. -/
theorem unknown_kind_unbound_local_cex :
    calculate_price straddleParams = .error .unboundLocalError :=
  calculate_price_badKind straddleParams
    (okNum_of_valid _ (by norm_num [straddleParams, sampleCall])
      (by norm_num [straddleParams, sampleCall])
      (by norm_num [straddleParams, sampleCall])
      (by norm_num [straddleParams, sampleCall]))
    (by simp [straddleParams]) (by simp [straddleParams])

/-- C5 (amended): with the numeric guards passing, the sequential
dispatch does produce a value for each of the two recognized kinds and
never returns a stale or unset result for any other kind — but an
unrecognized kind raises the untyped `UnboundLocalError`, not a typed
`UnsupportedOptionKind`; and with invalid numeric parameters the
numeric fault preempts the kind dispatch entirely. -/
theorem kind_dispatch_actual_behavior (p : BlackScholes) (hnum : okNum p) :
    (p.option_type = "call" → calculate_price p = .ok (callFormula p)) ∧
    (p.option_type = "put" → calculate_price p = .ok (putFormula p)) ∧
    (¬p.option_type = "call" → ¬p.option_type = "put" →
      calculate_price p = .error .unboundLocalError) :=
  ⟨fun h => calculate_price_callBranch p hnum h,
   fun h => calculate_price_putBranch p hnum h,
   fun h1 h2 => calculate_price_badKind p hnum h1 h2⟩

theorem kind_dispatch_actual_behavior_witness :
    calculate_price sampleCall = .ok (callFormula sampleCall) :=
  (kind_dispatch_actual_behavior sampleCall
    (okNum_of_valid _ (by norm_num [sampleCall]) (by norm_num [sampleCall])
      (by norm_num [sampleCall]) (by norm_num [sampleCall]))).1 rfl

lemma Phi_sub_eq_Ioc (a b : ℝ) (hab : a ≤ b) :
    Phi b - Phi a = ∫ t in Set.Ioc a b, normalPDF t := by
  rw [Phi, Phi, ← Set.Iic_union_Ioc_eq_Iic hab]
  rw [MeasureTheory.setIntegral_union (Set.Iic_disjoint_Ioc le_rfl)
    measurableSet_Ioc integrable_normalPDF.integrableOn
    integrable_normalPDF.integrableOn]
  ring

lemma setIntegral_Ioc_ge_const (a b m : ℝ) (hab : a ≤ b)
    (hm : ∀ t ∈ Set.Ioc a b, m ≤ normalPDF t) :
    (b - a) * m ≤ ∫ t in Set.Ioc a b, normalPDF t := by
  have hconst : ∫ _ in Set.Ioc a b, m = (b - a) * m := by
    rw [MeasureTheory.setIntegral_const, Real.volume_Ioc,
      ENNReal.toReal_ofReal (by linarith), smul_eq_mul]
  rw [← hconst]
  exact MeasureTheory.setIntegral_mono_on
    (MeasureTheory.integrableOn_const.mpr
      (Or.inr (by rw [Real.volume_Ioc]; exact ENNReal.ofReal_lt_top)))
    integrable_normalPDF.integrableOn measurableSet_Ioc hm

lemma setIntegral_Ioc_le_const (a b m : ℝ) (hab : a ≤ b)
    (hm : ∀ t ∈ Set.Ioc a b, normalPDF t ≤ m) :
    (∫ t in Set.Ioc a b, normalPDF t) ≤ (b - a) * m := by
  have hconst : ∫ _ in Set.Ioc a b, m = (b - a) * m := by
    rw [MeasureTheory.setIntegral_const, Real.volume_Ioc,
      ENNReal.toReal_ofReal (by linarith), smul_eq_mul]
  rw [← hconst]
  exact MeasureTheory.setIntegral_mono_on
    integrable_normalPDF.integrableOn
    (MeasureTheory.integrableOn_const.mpr
      (Or.inr (by rw [Real.volume_Ioc]; exact ENNReal.ofReal_lt_top)))
    measurableSet_Ioc hm

lemma Phi_diff_low : normalPDF 0.5 ≤ Phi 0.5 - Phi (-0.5) := by
  rw [Phi_sub_eq_Ioc (-0.5) 0.5 (by norm_num)]
  have h := setIntegral_Ioc_ge_const (-0.5) 0.5 (normalPDF 0.5) (by norm_num)
    (fun t ht => ?_)
  · linarith
  · rw [normalPDF, normalPDF]
    refine (div_le_div_iff_of_pos_right sqrt_two_pi_pos).mpr ?_
    refine Real.exp_le_exp.mpr ?_
    obtain ⟨h1, h2⟩ := ht
    nlinarith

lemma Phi_diff_high : Phi 2 - Phi 1 ≤ normalPDF 1 := by
  rw [Phi_sub_eq_Ioc 1 2 (by norm_num)]
  have h := setIntegral_Ioc_le_const 1 2 (normalPDF 1) (by norm_num)
    (fun t ht => ?_)
  · linarith
  · rw [normalPDF, normalPDF]
    refine (div_le_div_iff_of_pos_right sqrt_two_pi_pos).mpr ?_
    refine Real.exp_le_exp.mpr ?_
    obtain ⟨h1, h2⟩ := ht
    nlinarith

lemma normalPDF_one_lt_half : normalPDF 1 < normalPDF 0.5 := by
  rw [normalPDF, normalPDF]
  refine (div_lt_div_iff_of_pos_right sqrt_two_pi_pos).mpr ?_
  refine Real.exp_lt_exp.mpr ?_
  norm_num

/-- At-the-money unit parameters; in the UI these would accompany a
module-level input `T`. -/
noncomputable def uiSample : BlackScholes :=
  { S := 1, K := 1, T := 1, r := 0, vol := 1, option_type := "call" }

lemma uiSample_code_val : calculate_price uiSample = .ok (Phi 0.5 - Phi (-0.5)) := by
  norm_num [calculate_price, uiSample, Real.sqrt_one, Real.log_one, Real.exp_zero]

lemma uiSample_ui_val :
    UIModule.calculate_price uiSample 4 = .ok (Phi 2 - Phi 1) := by
  norm_num [UIModule.calculate_price, uiSample, Real.sqrt_one, Real.log_one,
    Real.exp_zero]

/-- C7: the two embedded copies of the pricing routine are not
extensionally equal.  The UI copy reads the ambient module-level `T` in
the numerator of `d1`; at the unit call parameters (S=K=T=vol=1, r=0)
with the ambient `T` equal to 4 it returns `Phi 2 - Phi 1`, while the
library copy returns `Phi 0.5 - Phi (-0.5)`, and these real numbers
differ. -/
theorem ui_price_diverges_at_global_T :
    UIModule.calculate_price uiSample 4 ≠ calculate_price uiSample := by
  rw [uiSample_code_val, uiSample_ui_val]
  intro h
  have hv : Phi 2 - Phi 1 = Phi 0.5 - Phi (-0.5) := by
    simpa using h
  have h1 := Phi_diff_low
  have h2 := Phi_diff_high
  have h3 := normalPDF_one_lt_half
  linarith
